import Mathlib

/-!
Verification of the FastBERT early-exit inference scheduler of
`src/uf/apps/fastbert/fastbert_classifier.py`.

The development shallowly embeds:

* `_uncertainty` (lines 212-215): the normalized-entropy confidence scorer,
  over real numbers (`Real.log` in place of `np.log`);
* `_permutate` (lines 217-245, identical copy at lines 279-307): the
  early-exit scheduling loop, as an executable function over lists.  The
  real-valued comparison `_uncertainty(batch_probs[i][0]) < self._speed`
  is abstracted into a Boolean parameter `exitQ` applied to the row read
  at the cursor, so the scheduling logic itself stays executable;
* the configuration-update preamble shared by `predict` (lines 70-78),
  `score` (lines 100-108) and `export` (lines 129-137).

Python runtime errors (`IndexError` from an out-of-range NumPy read or
write, `AssertionError` from the final `assert i == len(batch_probs)`)
are embedded as `Except` errors.  The `PermState` record carries, besides
the source's `probs`/`sources` output arrays and the row cursor `i`, two
ghost observers that do not influence the computation: `trace` records
every finalization `(example, source, row index)` in the order it happens,
and `finalUnfs` records each device chunk's `unfinished` list as it stands
after that chunk's last loop.
-/

namespace FastBert

/-- Errors a `_permutate` run can raise: a NumPy `IndexError` (reading
`batch_probs[i]` past the end, writing `probs[u]`/`sources[u]` with
`u >= batch_size`, or an out-of-range `keep_cls[loop]`), and the
`AssertionError` of `assert i == len(batch_probs)` (line 244). -/
inductive PermError where
  | indexError
  | assertionError
deriving DecidableEq, Repr

/-- The mutable state of one `_permutate` call.  `probs` and `sources` are
the output arrays allocated at lines 220-221 (`np.zeros`), `i` is the row
cursor of line 227.  `trace` and `finalUnfs` are ghost observers (see the
file header); they receive writes but are never read by the algorithm. -/
structure PermState (α : Type) where
  probs : List α
  sources : List ℕ
  i : ℕ
  trace : List (ℕ × ℕ × ℕ)
  finalUnfs : List (List ℕ)
deriving DecidableEq, Repr

/-- The inner loop `for k in range(len(unfinished))` (lines 236-242):
process each still-unfinished example of the current stage, reading one
probability row at the cursor per example.  `forced` is the value of
`loop == max_loop - 1`; `exitQ row` is the value of
`_uncertainty(batch_probs[i][0]) < self._speed`.  A finalized example is
written into `probs`/`sources` (guarded by the NumPy bound `u < bs`);
a surviving one is appended to `next_unfinished`.  Returns the updated
state and `next_unfinished`. -/
def stageStep (exitQ : α → Bool) (rows : List α) (bs : ℕ) (forced : Bool) (source : ℕ) :
    List ℕ → PermState α → Except PermError (PermState α × List ℕ)
  | [], st => .ok (st, [])
  | u :: us, st =>
    match rows[st.i]? with
    | none => .error .indexError
    | some row =>
      if exitQ row || forced then
        if u < bs then
          stageStep exitQ rows bs forced source us
            { st with
              probs := st.probs.set u row
              sources := st.sources.set u source
              i := st.i + 1
              trace := st.trace ++ [(u, source, st.i)] }
        else
          .error .indexError
      else
        match stageStep exitQ rows bs forced source us { st with i := st.i + 1 } with
        | .error e => .error e
        | .ok (st', unf') => .ok (st', u :: unf')

/-- The middle loop `for loop in range(max_loop)` (lines 232-243):
`loopsLeft` counts the remaining iterations (initially `max_loop`),
`loopIdx` is the Python `loop` variable, so the stage is forced
(`loop == max_loop - 1`) exactly when `loopsLeft = 1`.  The stage's
`source` is `keep_cls[loop]` (line 233).  Returns the state and the
`unfinished` list left after the last iteration. -/
def runLoops (exitQ : α → Bool) (rows : List α) (bs : ℕ) (keepCls : List ℕ) :
    (loopsLeft loopIdx : ℕ) → List ℕ → PermState α → Except PermError (PermState α × List ℕ)
  | 0, _, unf, st => .ok (st, unf)
  | n + 1, loopIdx, unf, st =>
    match keepCls[loopIdx]? with
    | none => .error .indexError
    | some src =>
      match stageStep exitQ rows bs (n == 0) src unf st with
      | .error e => .error e
      | .ok (st', unf') => runLoops exitQ rows bs keepCls n (loopIdx + 1) unf' st'

/-- Line 230: `unfinished = [k + i for k in range(d_batch_size)]` — the
initial unfinished list of a device chunk, built from the *running row
cursor* `i`, not from the chunk number. -/
def initUnfinished (dBatch i : ℕ) : List ℕ :=
  (List.range dBatch).map (fun k => k + i)

/-- The outer loop `for d in range(n_device)` (lines 229-243): run every
device chunk in order, each starting from the unfinished list
`initUnfinished dBatch st.i`.  The chunk's final unfinished list is
recorded in the ghost field `finalUnfs` (the source simply drops it). -/
def runDevices (exitQ : α → Bool) (rows : List α) (bs dBatch : ℕ) (keepCls : List ℕ)
    (maxLoop : ℕ) : ℕ → PermState α → Except PermError (PermState α)
  | 0, st => .ok st
  | d + 1, st =>
    match runLoops exitQ rows bs keepCls maxLoop 0 (initUnfinished dBatch st.i) st with
    | .error e => .error e
    | .ok (st', unf') =>
        runDevices exitQ rows bs dBatch keepCls maxLoop d
          { st' with finalUnfs := st'.finalUnfs ++ [unf'] }

/-- Lines 223-226: `keep_cls`, the stage indices `0 .. num_hidden_layers`
not listed in `ignore_cls`. -/
def keepClsOf (numHiddenLayers : ℕ) (ignoreCls : List ℕ) : List ℕ :=
  (List.range (numHiddenLayers + 1)).filter (fun c => !(ignoreCls.contains c))

/-- Line 222: `max_loop = num_hidden_layers + 1 - len(ignore_cls)`
(`ℕ`-subtraction matches Python's `range` of a possibly negative bound). -/
def maxLoopOf (numHiddenLayers : ℕ) (ignoreCls : List ℕ) : ℕ :=
  numHiddenLayers + 1 - ignoreCls.length

/-- Lines 220-221 and 227: the zero-initialized output arrays and the row
cursor.  `z` stands for the zero row `np.zeros(label_size)`. -/
def initState (z : α) (bs : ℕ) : PermState α :=
  ⟨List.replicate bs z, List.replicate bs 0, 0, [], []⟩

/-- `_permutate` (lines 217-245).  `gpuCount` is `len(self._gpu_ids)`;
`n_device = max(gpuCount, 1)` (line 218), `d_batch_size` is the floor
division of line 219.  After the device loop the source asserts
`i == len(batch_probs)` (line 244); the successful result carries the
final state (its `probs` and `sources` fields are the source's return
values, `i`/`trace`/`finalUnfs` are ghost observers). -/
def permutate (exitQ : α → Bool) (z : α) (gpuCount batchSize numHiddenLayers : ℕ)
    (ignoreCls : List ℕ) (rows : List α) : Except PermError (PermState α) :=
  let nDevice := max gpuCount 1
  let dBatch := batchSize / nDevice
  match runDevices exitQ rows batchSize dBatch (keepClsOf numHiddenLayers ignoreCls)
      (maxLoopOf numHiddenLayers ignoreCls) nDevice (initState z batchSize) with
  | .error e => .error e
  | .ok st => if st.i = rows.length then .ok st else .error .assertionError

/-- Number of result records the ghost trace holds for example `u`. -/
def traceCount (u : ℕ) (t : List (ℕ × ℕ × ℕ)) : ℕ :=
  (t.filter (fun e => e.1 == u)).length

/-- The clamp threshold `1e-20` of line 213. -/
noncomputable def tinyEps : ℝ := 1 / 10 ^ 20

/-- Lines 213-214: `if prob < 1e-20 or 1 - prob < 1e-20: prob = 1e-20`. -/
noncomputable def clampProb (p : ℝ) : ℝ :=
  if p < tinyEps ∨ 1 - p < tinyEps then tinyEps else p

/-- `_uncertainty` (lines 212-215, identical copy at lines 274-277):
normalized entropy of the clamped head-class probability,
`(p*log(p) + (1-p)*log(1-p)) / log(1/label_size)`.  A pure function of
the probability and `self.label_size` (the Python closure reads but never
writes `self`). -/
noncomputable def uncertainty (labelSize : ℕ) (p : ℝ) : ℝ :=
  (clampProb p * Real.log (clampProb p) + (1 - clampProb p) * Real.log (1 - clampProb p)) /
    Real.log (1 / (labelSize : ℝ))

/-- Extraction of the head-class probability `batch_probs[i][0]`
(line 237) from a probability row. -/
noncomputable def rowHead (r : List ℝ) : ℝ := r.headD 0

/-- Modelled from the spec's words (section 4.1): clamp `p` away from
exactly 0 or 1, replacing it with the tiny epsilon whenever it is within
epsilon of either end. -/
noncomputable def clampSpecProb (p : ℝ) : ℝ :=
  if p < tinyEps then tinyEps else if p > 1 - tinyEps then tinyEps else p

/-- Modelled from the spec's words (section 4.1), for comparison with the
source-derived `uncertainty`: clamp, then return
`(p*log(p) + (1-p)*log(1-p)) / log(1/label_size)`. -/
noncomputable def uncertaintySpec (labelSize : ℕ) (p : ℝ) : ℝ :=
  (clampSpecProb p * Real.log (clampSpecProb p) +
      (1 - clampSpecProb p) * Real.log (1 - clampSpecProb p)) /
    Real.log (1 / (labelSize : ℝ))

/-- The inference-relevant mutable attributes of a `FastBERTClassifier`:
`_speed`, `_ignore_cls`, and `_session_mode` (whose payload type is
abstract here; only the assignment `self._session_mode = None` matters). -/
structure ModuleState (μ : Type) where
  speed : ℚ
  ignoreCls : List ℕ
  sessionMode : Option μ
deriving DecidableEq, Repr

/-- Lines 70-78 of `predict`: compare the converted `ignore_cls` and the
supplied `speed` against the stored attributes, overwrite on difference,
and invalidate `_session_mode` on either difference.  `ignoreConv` is the
result of `convert_ignore_cls(ignore_cls)` (defined in `fastbert.py`,
outside this embedding; the update logic is parametric in it). -/
def predictConfigUpdate (ignoreConv : List ℕ) (speed : ℚ) (st : ModuleState μ) : ModuleState μ :=
  let st1 := if ignoreConv ≠ st.ignoreCls then
    { st with ignoreCls := ignoreConv, sessionMode := none } else st
  if speed ≠ st1.speed then { st1 with speed := speed, sessionMode := none } else st1

/-- Lines 100-108 of `score`: the same comparison/update preamble. -/
def scoreConfigUpdate (ignoreConv : List ℕ) (speed : ℚ) (st : ModuleState μ) : ModuleState μ :=
  let st1 := if ignoreConv ≠ st.ignoreCls then
    { st with ignoreCls := ignoreConv, sessionMode := none } else st
  if speed ≠ st1.speed then { st1 with speed := speed, sessionMode := none } else st1

/-- Lines 129-137 of `export`: the same comparison/update preamble. -/
def exportConfigUpdate (ignoreConv : List ℕ) (speed : ℚ) (st : ModuleState μ) : ModuleState μ :=
  let st1 := if ignoreConv ≠ st.ignoreCls then
    { st with ignoreCls := ignoreConv, sessionMode := none } else st
  if speed ≠ st1.speed then { st1 with speed := speed, sessionMode := none } else st1

/-- Master specification of one inner loop of `_permutate` on a successful
run: the cursor advances by exactly one row per still-unfinished example;
`next_unfinished` is a subsequence of `unfinished`; the ghost chunk record
and the array lengths are untouched; every new trace record carries this
stage's `source` and an example of `unfinished`; per example, records
gained plus survivals balance occurrences; a forced stage leaves nobody
unfinished; `sources` slots of examples outside `unfinished` are untouched;
and a forced stage writes `source` into every processed example's slot. -/
theorem stageStep_spec {α : Type} (exitQ : α → Bool) (rows : List α) (bs : ℕ)
    (forced : Bool) (source : ℕ) (unf : List ℕ) :
    ∀ (st st' : PermState α) (unf' : List ℕ),
      stageStep exitQ rows bs forced source unf st = .ok (st', unf') →
      st'.i = st.i + unf.length ∧
      unf'.Sublist unf ∧
      st'.finalUnfs = st.finalUnfs ∧
      st'.sources.length = st.sources.length ∧
      (∀ e ∈ st'.trace, e ∈ st.trace ∨ (e.2.1 = source ∧ e.1 ∈ unf)) ∧
      (∀ v, traceCount v st'.trace + unf'.count v = traceCount v st.trace + unf.count v) ∧
      (forced = true → unf' = []) ∧
      (∀ v, v ∉ unf → st'.sources.getD v 0 = st.sources.getD v 0) ∧
      (forced = true → ∀ v ∈ unf, v < bs ∧
        (st.sources.length = bs → st'.sources.getD v 0 = source)) := by
  induction unf with
  | nil =>
    intro st st' unf' h
    simp only [stageStep, Except.ok.injEq, Prod.mk.injEq] at h
    obtain ⟨rfl, rfl⟩ := h
    refine ⟨by simp, List.Sublist.refl _, rfl, rfl, fun e he => Or.inl he,
      fun v => by simp, fun _ => rfl, fun v _ => rfl, fun _ v hv => absurd hv (by simp)⟩
  | cons u us ih =>
    intro st st' unf' h
    rw [stageStep] at h
    split at h
    · exact absurd h (by simp)
    next row hrow =>
      split at h
      next hexit =>
        split at h
        next hu =>
          obtain ⟨ih1, ih2, ih3, ih4, ih5, ih6, ih7, ih8, ih9⟩ := ih _ _ _ h
          have ih1' : st'.i = st.i + 1 + us.length := by simpa using ih1
          have ih4' : st'.sources.length = st.sources.length := by simpa using ih4
          refine ⟨by simp only [List.length_cons]; omega,
            ih2.trans (List.sublist_cons_self u us), ih3, ih4', ?_, ?_, ih7, ?_, ?_⟩
          · intro e he
            rcases ih5 e he with he' | he'
            · rcases List.mem_append.1 he' with h1 | h1
              · exact Or.inl h1
              · refine Or.inr ?_
                rcases List.mem_singleton.1 h1 with rfl
                exact ⟨rfl, List.mem_cons_self u us⟩
            · exact Or.inr ⟨he'.1, List.mem_cons_of_mem u he'.2⟩
          · intro v
            have h6 : traceCount v st'.trace + unf'.count v =
                traceCount v (st.trace ++ [(u, source, st.i)]) + us.count v := ih6 v
            have hcnt : traceCount v (st.trace ++ [(u, source, st.i)]) =
                traceCount v st.trace + if u = v then 1 else 0 := by
              simp only [traceCount, List.filter_append, List.length_append]
              by_cases huv : u = v <;> simp [huv]
            rw [hcnt] at h6
            simp only [List.count_cons, beq_iff_eq]
            by_cases huv : u = v
            · simp only [if_pos huv] at h6 ⊢; omega
            · simp only [if_neg huv] at h6 ⊢; omega
          · intro v hv
            have hvu : v ≠ u := fun hh => hv (hh ▸ List.mem_cons_self u us)
            have hvus : v ∉ us := fun hh => hv (List.mem_cons_of_mem u hh)
            have h8 : st'.sources.getD v 0 = (st.sources.set u source).getD v 0 := ih8 v hvus
            rw [h8]
            simp only [List.getD_eq_getElem?_getD]
            rw [List.getElem?_set_ne (fun hh => hvu hh.symm)]
          · intro hf v hv
            rcases List.mem_cons.1 hv with rfl | hv'
            · by_cases hvus : v ∈ us
              · have h9 := ih9 hf v hvus
                exact ⟨hu, fun hl => h9.2 (by simpa using hl)⟩
              · refine ⟨hu, fun hl => ?_⟩
                have h8 : st'.sources.getD v 0 = (st.sources.set v source).getD v 0 := ih8 v hvus
                rw [h8]
                simp only [List.getD_eq_getElem?_getD]
                rw [List.getElem?_set_eq_of_lt source (by omega : v < st.sources.length)]
                rfl
            · have h9 := ih9 hf v hv'
              exact ⟨h9.1, fun hl => h9.2 (by simpa using hl)⟩
        next hu => exact absurd h (by simp)
      next hexit =>
        have hforced : forced = false := by
          rcases Bool.eq_false_or_eq_true forced with hf | hf
          · exact absurd (by simp [hf]) hexit
          · exact hf
        split at h
        next e heq => exact absurd h (by simp)
        next st₂ unf₂ heq =>
          simp only [Except.ok.injEq, Prod.mk.injEq] at h
          obtain ⟨rfl, rfl⟩ := h
          obtain ⟨ih1, ih2, ih3, ih4, ih5, ih6, ih7, ih8, ih9⟩ := ih _ _ _ heq
          have ih1' : st₂.i = st.i + 1 + us.length := by simpa using ih1
          refine ⟨by simp only [List.length_cons]; omega, ih2.cons₂ u, ih3, ih4, ?_, ?_, ?_, ?_, ?_⟩
          · intro e he
            rcases ih5 e he with he' | he'
            · exact Or.inl he'
            · exact Or.inr ⟨he'.1, List.mem_cons_of_mem u he'.2⟩
          · intro v
            have h6 : traceCount v st₂.trace + unf₂.count v =
                traceCount v st.trace + us.count v := ih6 v
            simp only [List.count_cons, beq_iff_eq]
            by_cases huv : u = v
            · simp only [if_pos huv]; omega
            · simp only [if_neg huv]; omega
          · intro hf; rw [hforced] at hf; exact absurd hf (by simp)
          · intro v hv
            exact ih8 v (fun hh => hv (List.mem_cons_of_mem u hh))
          · intro hf; rw [hforced] at hf; exact absurd hf (by simp)

/-- When the early-exit test always answers `false` (e.g. `speed = 0`), a
non-forced stage only advances the cursor: nobody is finalized and the
unfinished list survives unchanged. -/
theorem stageStep_constFalse {α : Type} {exitQ : α → Bool} (hfalse : ∀ r, exitQ r = false)
    (rows : List α) (bs source : ℕ) (unf : List ℕ) :
    ∀ (st st' : PermState α) (unf' : List ℕ),
      stageStep exitQ rows bs false source unf st = .ok (st', unf') →
      st' = { st with i := st.i + unf.length } ∧ unf' = unf := by
  induction unf with
  | nil =>
    intro st st' unf' h
    simp only [stageStep, Except.ok.injEq, Prod.mk.injEq] at h
    obtain ⟨rfl, rfl⟩ := h
    constructor
    · cases st; simp
    · rfl
  | cons u us ih =>
    intro st st' unf' h
    rw [stageStep] at h
    split at h
    · exact absurd h (by simp)
    next row hrow =>
      split at h
      next hcond =>
        rw [hfalse row] at hcond
        exact absurd hcond (by simp)
      next hcond =>
        split at h
        next e heq => exact absurd h (by simp)
        next st₂ unf₂ heq =>
          simp only [Except.ok.injEq, Prod.mk.injEq] at h
          obtain ⟨rfl, rfl⟩ := h
          obtain ⟨h1, rfl⟩ := ih _ _ _ heq
          refine ⟨?_, rfl⟩
          rw [h1]
          simp only [List.length_cons]
          congr 1
          omega

/-- Specification of the stage loop of `_permutate` on a successful run:
the surviving list is a subsequence of the initial one; the chunk record
and array lengths are untouched; every new trace record draws its source
from `keep_cls`; per example, records gained plus survivals balance
occurrences; and if at least one stage ran, the final (forced) stage
leaves the unfinished list empty. -/
theorem runLoops_spec {α : Type} (exitQ : α → Bool) (rows : List α) (bs : ℕ)
    (keepCls : List ℕ) :
    ∀ (n loopIdx : ℕ) (unf : List ℕ) (st st' : PermState α) (unfF : List ℕ),
      runLoops exitQ rows bs keepCls n loopIdx unf st = .ok (st', unfF) →
      unfF.Sublist unf ∧
      st'.finalUnfs = st.finalUnfs ∧
      st'.sources.length = st.sources.length ∧
      (∀ e ∈ st'.trace, e ∈ st.trace ∨ e.2.1 ∈ keepCls) ∧
      (∀ v, traceCount v st'.trace + unfF.count v = traceCount v st.trace + unf.count v) ∧
      (1 ≤ n → unfF = []) := by
  intro n
  induction n with
  | zero =>
    intro loopIdx unf st st' unfF h
    simp only [runLoops, Except.ok.injEq, Prod.mk.injEq] at h
    obtain ⟨rfl, rfl⟩ := h
    exact ⟨List.Sublist.refl _, rfl, rfl, fun e he => Or.inl he, fun v => rfl,
      fun hn => absurd hn (by omega)⟩
  | succ n ih =>
    intro loopIdx unf st st' unfF h
    rw [runLoops] at h
    split at h
    · exact absurd h (by simp)
    next src hsrc =>
      have hsrcmem : src ∈ keepCls := by
        obtain ⟨hlt, hget⟩ := List.getElem?_eq_some.1 hsrc
        exact hget ▸ List.getElem_mem hlt
      split at h
      next e heq => exact absurd h (by simp)
      next st₂ unf₂ heq =>
        obtain ⟨s1, s2, s3, s4, s5, s6, s7, s8, s9⟩ :=
          stageStep_spec exitQ rows bs (n == 0) src unf _ _ _ heq
        cases n with
        | zero =>
          simp only [runLoops, Except.ok.injEq, Prod.mk.injEq] at h
          obtain ⟨hst, hunf⟩ := h
          have hempty : unfF = [] := hunf ▸ s7 rfl
          rw [← hst, hempty]
          refine ⟨List.nil_sublist _, s3, s4, ?_, ?_, fun _ => rfl⟩
          · intro e he
            rcases s5 e he with he' | he'
            · exact Or.inl he'
            · exact Or.inr (he'.1 ▸ hsrcmem)
          · intro v
            have s6' := s6 v
            rw [s7 rfl] at s6'
            exact s6'
        | succ m =>
          obtain ⟨i1, i2, i3, i4, i5, i6⟩ := ih _ _ _ _ _ h
          refine ⟨i1.trans s2, i2.trans s3, i3.trans s4, ?_, ?_, fun _ => i6 (by omega)⟩
          · intro e he
            rcases i4 e he with he' | he'
            · rcases s5 e he' with he'' | he''
              · exact Or.inl he''
              · exact Or.inr (he''.1 ▸ hsrcmem)
            · exact Or.inr he'
          · intro v
            have h1 := s6 v
            have h2 := i5 v
            omega

/-- Under an always-`false` exit test, a run of at least one stage writes
`keep_cls[loopIdx + n - 1]` — the source of the final forced stage — into
the `sources` slot of every example of the unfinished list (all slots
being in bounds). -/
theorem runLoops_constFalse {α : Type} {exitQ : α → Bool} (hfalse : ∀ r, exitQ r = false)
    (rows : List α) (bs : ℕ) (keepCls : List ℕ) :
    ∀ (n loopIdx : ℕ) (unf : List ℕ) (st st' : PermState α) (unfF : List ℕ),
      1 ≤ n →
      runLoops exitQ rows bs keepCls n loopIdx unf st = .ok (st', unfF) →
      st.sources.length = bs →
      ∀ v ∈ unf, v < bs ∧ st'.sources.getD v 0 = keepCls.getD (loopIdx + n - 1) 0 := by
  intro n
  induction n with
  | zero => intro _ _ _ _ _ hn; omega
  | succ n ih =>
    intro loopIdx unf st st' unfF _ h hlen
    rw [runLoops] at h
    split at h
    · exact absurd h (by simp)
    next src hsrc =>
      have hsrcget : keepCls.getD loopIdx 0 = src := by
        rw [List.getD_eq_getElem?_getD, hsrc]
        rfl
      split at h
      next e heq => exact absurd h (by simp)
      next st₂ unf₂ heq =>
        cases n with
        | zero =>
          simp only [runLoops, Except.ok.injEq, Prod.mk.injEq] at h
          obtain ⟨rfl, rfl⟩ := h
          obtain ⟨-, -, -, -, -, -, -, -, s9⟩ :=
            stageStep_spec exitQ rows bs (0 == 0) src unf _ _ _ heq
          intro v hv
          obtain ⟨hvbs, hset⟩ := s9 rfl v hv
          refine ⟨hvbs, ?_⟩
          rw [hset hlen]
          simp only [Nat.add_sub_cancel]
          exact hsrcget.symm
        | succ m =>
          have hforced : ((m + 1 : ℕ) == 0) = false := by simp
          rw [hforced] at heq
          obtain ⟨hst₂, hunf⟩ := stageStep_constFalse hfalse rows bs src unf st st₂ unf₂ heq
          intro v hv
          have hlen₂ : st₂.sources.length = bs := by rw [hst₂]; simpa using hlen
          have hmem₂ : v ∈ unf₂ := by rw [hunf]; exact hv
          have := ih (loopIdx + 1) unf₂ st₂ st' unfF (by omega) h hlen₂ v hmem₂
          refine ⟨this.1, ?_⟩
          rw [this.2]
          congr 1
          omega

/-- With `ignore_cls` a duplicate-free list of stage indices in
`[0, num_hidden_layers]`, the length of `keep_cls` equals `max_loop`. -/
theorem keepClsOf_length (L : ℕ) (ign : List ℕ) (hnd : ign.Nodup)
    (hmem : ∀ c ∈ ign, c ≤ L) : (keepClsOf L ign).length = maxLoopOf L ign := by
  have hperm : List.Perm ((List.range (L + 1)).filter (fun c => ign.contains c)) ign := by
    refine (List.perm_ext_iff_of_nodup ((List.nodup_range _).filter _) hnd).2 ?_
    intro a
    constructor
    · intro ha
      have := (List.mem_filter.1 ha).2
      exact List.elem_iff.1 this
    · intro ha
      exact List.mem_filter.2 ⟨List.mem_range.2 (by have := hmem a ha; omega),
        List.elem_iff.2 ha⟩
  have hsplit := List.length_eq_countP_add_countP (fun c => ign.contains c) (List.range (L + 1))
  have hco : List.countP (fun a => decide ¬(ign.contains a) = true) (List.range (L + 1)) =
      List.countP (fun c => !(ign.contains c)) (List.range (L + 1)) := by
    refine List.countP_congr ?_
    intro x _
    cases hx : ign.contains x <;> simp [hx]
  have h1 : List.countP (fun c => ign.contains c) (List.range (L + 1)) = ign.length := by
    rw [List.countP_eq_length_filter]
    exact hperm.length_eq
  have h2 : List.countP (fun c => !(ign.contains c)) (List.range (L + 1)) =
      (keepClsOf L ign).length := by
    rw [List.countP_eq_length_filter]
    rfl
  rw [hco, h1, h2, List.length_range] at hsplit
  have hle : ign.length ≤ L + 1 := by omega
  rw [maxLoopOf]
  omega

/-- With the final stage not ignored, `ignore_cls` has at most
`num_hidden_layers` entries, so at least one loop runs. -/
theorem maxLoopOf_pos (L : ℕ) (ign : List ℕ) (hnd : ign.Nodup)
    (hmem : ∀ c ∈ ign, c ≤ L) (hL : L ∉ ign) : 1 ≤ maxLoopOf L ign := by
  have hsub : ign ⊆ List.range L := by
    intro c hc
    refine List.mem_range.2 ?_
    have h1 := hmem c hc
    have h2 : c ≠ L := fun hh => hL (hh ▸ hc)
    omega
  have := (List.subperm_of_subset hnd hsub).length_le
  rw [List.length_range] at this
  rw [maxLoopOf]
  omega

/-- `getLastD` as a positional access at `length - 1`. -/
theorem getLastD_eq_getD_length_sub_one {β : Type} (l : List β) (d : β) :
    l.getLastD d = l.getD (l.length - 1) d := by
  rw [List.getLastD_eq_getLast?, List.getLast?_eq_getElem?, List.getD_eq_getElem?_getD]

/-- Inversion of a successful `_permutate` call: the device loop succeeded
and the closing `assert i == len(batch_probs)` held. -/
theorem permutate_ok_inv {α : Type} (exitQ : α → Bool) (z : α)
    (gpuCount batchSize numHiddenLayers : ℕ) (ignoreCls : List ℕ) (rows : List α)
    (st : PermState α) :
    permutate exitQ z gpuCount batchSize numHiddenLayers ignoreCls rows = .ok st →
    runDevices exitQ rows batchSize (batchSize / max gpuCount 1)
      (keepClsOf numHiddenLayers ignoreCls) (maxLoopOf numHiddenLayers ignoreCls)
      (max gpuCount 1) (initState z batchSize) = .ok st ∧
    st.i = rows.length := by
  intro h
  rw [permutate] at h
  split at h
  · exact absurd h (by simp)
  next st₂ heq =>
    split at h
    next hi =>
      simp only [Except.ok.injEq] at h
      subst h
      exact ⟨heq, hi⟩
    next hi => exact absurd h (by simp)

theorem tinyEps_pos : 0 < tinyEps := by rw [tinyEps]; norm_num

theorem tinyEps_lt_half : tinyEps < 1 / 2 := by rw [tinyEps]; norm_num

/-- The clamped probability is strictly positive. -/
theorem clampProb_pos (p : ℝ) : 0 < clampProb p := by
  rw [clampProb]
  split
  · exact tinyEps_pos
  next h =>
    push_neg at h
    linarith [h.1, tinyEps_pos]

/-- The clamped probability is strictly below one. -/
theorem clampProb_lt_one (p : ℝ) : clampProb p < 1 := by
  rw [clampProb]
  split
  · linarith [tinyEps_lt_half]
  next h =>
    push_neg at h
    linarith [h.2, tinyEps_pos]

/-- The source's normalized entropy, rewritten through Mathlib's binary
entropy: `uncertainty L p = binEntropy (clampProb p) / log L`. -/
theorem uncertainty_eq_binEntropy (L : ℕ) (p : ℝ) :
    uncertainty L p = Real.binEntropy (clampProb p) / Real.log L := by
  have hbe : Real.binEntropy (clampProb p) =
      -(clampProb p * Real.log (clampProb p) +
        (1 - clampProb p) * Real.log (1 - clampProb p)) := by
    rw [Real.binEntropy, Real.log_inv, Real.log_inv]
    ring
  rw [uncertainty, hbe, one_div, Real.log_inv, div_neg, neg_div]

theorem log_nat_pos (L : ℕ) (hL : 2 ≤ L) : 0 < Real.log L := by
  have h2 : (2 : ℝ) ≤ (L : ℝ) := by exact_mod_cast hL
  exact Real.log_pos (by linarith)

/-- With at least two labels, the uncertainty score is never negative. -/
theorem uncertainty_nonneg (L : ℕ) (hL : 2 ≤ L) (p : ℝ) : 0 ≤ uncertainty L p := by
  rw [uncertainty_eq_binEntropy]
  exact div_nonneg
    (Real.binEntropy_nonneg (clampProb_pos p).le (clampProb_lt_one p).le)
    (log_nat_pos L hL).le

/-- With at least two labels, the uncertainty score is at most one. -/
theorem uncertainty_le_one (L : ℕ) (hL : 2 ≤ L) (p : ℝ) : uncertainty L p ≤ 1 := by
  rw [uncertainty_eq_binEntropy, div_le_one (log_nat_pos L hL)]
  calc Real.binEntropy (clampProb p) ≤ Real.log 2 := Real.binEntropy_le_log_two
    _ ≤ Real.log L := Real.log_le_log (by norm_num) (by exact_mod_cast hL)

theorem clampProb_half : clampProb (1 / 2) = 1 / 2 := by
  rw [clampProb, if_neg]
  rw [tinyEps]
  push_neg
  norm_num

/-- The score at the midpoint probability. -/
theorem uncertainty_half (L : ℕ) : uncertainty L (1 / 2) = Real.log 2 / Real.log L := by
  rw [uncertainty_eq_binEntropy, clampProb_half,
    (by norm_num : (1 : ℝ) / 2 = 2⁻¹), Real.binEntropy_two_inv]

/-- The midpoint probability maximizes the uncertainty score. -/
theorem uncertainty_le_half (L : ℕ) (hL : 2 ≤ L) (p : ℝ) :
    uncertainty L p ≤ uncertainty L (1 / 2) := by
  rw [uncertainty_half, uncertainty_eq_binEntropy]
  exact (div_le_div_iff_of_pos_right (log_nat_pos L hL)).2 Real.binEntropy_le_log_two

/-- The uncertainty score is symmetric under `p ↦ 1 - p`. -/
theorem uncertainty_one_sub (L : ℕ) (p : ℝ) : uncertainty L (1 - p) = uncertainty L p := by
  rw [uncertainty_eq_binEntropy, uncertainty_eq_binEntropy]
  have hc : Real.binEntropy (clampProb (1 - p)) = Real.binEntropy (clampProb p) := by
    rw [clampProb, clampProb, sub_sub_cancel]
    by_cases h : p < tinyEps ∨ 1 - p < tinyEps
    · rw [if_pos (h.elim Or.inr Or.inl), if_pos h]
    · rw [if_neg (fun hc => h (hc.elim Or.inr Or.inl)), if_neg h, Real.binEntropy_one_sub]
  rw [hc]

/-- Clamping is monotone on `(0, 1/2]` and keeps the value in that range. -/
theorem clampProb_mono_left (p₁ p₂ : ℝ) (_h1 : 0 < p₁) (h12 : p₁ ≤ p₂) (h2 : p₂ ≤ 1 / 2) :
    clampProb p₁ ≤ clampProb p₂ ∧ clampProb p₂ ≤ 1 / 2 := by
  have he := tinyEps_pos
  have heh := tinyEps_lt_half
  rw [clampProb, clampProb]
  constructor
  · split
    next ha =>
      split
      next hb => exact le_refl _
      next hb =>
        push_neg at hb
        exact hb.1
    next ha =>
      push_neg at ha
      split
      next hb =>
        exfalso
        rcases hb with hb | hb <;> linarith [ha.1]
      next hb => exact h12
  · split
    next => linarith
    next hb => exact h2

/-- On `(0, 1/2]` the uncertainty score is monotone in the probability;
by symmetry it decreases as `p` moves from `1/2` toward either end. -/
theorem uncertainty_mono (L : ℕ) (hL : 2 ≤ L) (p₁ p₂ : ℝ) (h1 : 0 < p₁) (h12 : p₁ ≤ p₂)
    (h2 : p₂ ≤ 1 / 2) : uncertainty L p₁ ≤ uncertainty L p₂ := by
  rw [uncertainty_eq_binEntropy, uncertainty_eq_binEntropy]
  obtain ⟨hq12, hq2⟩ := clampProb_mono_left p₁ p₂ h1 h12 h2
  have hhalf : (1 : ℝ) / 2 = 2⁻¹ := by norm_num
  rw [div_le_div_iff_of_pos_right (log_nat_pos L hL)]
  refine Real.binEntropy_strictMonoOn.monotoneOn ⟨(clampProb_pos p₁).le, ?_⟩
    ⟨(clampProb_pos p₂).le, ?_⟩ hq12
  · rw [← hhalf]
    exact hq12.trans hq2
  · rw [← hhalf]
    exact hq2

/-- Inversion of the device loop in the single-device case: one chunk runs,
its final unfinished list is recorded, and nothing else happens. -/
theorem runDevices_one {α : Type} (exitQ : α → Bool) (rows : List α) (bs dBatch : ℕ)
    (keepCls : List ℕ) (maxLoop : ℕ) (st0 st : PermState α) :
    runDevices exitQ rows bs dBatch keepCls maxLoop 1 st0 = .ok st →
    ∃ st' unf', runLoops exitQ rows bs keepCls maxLoop 0 (initUnfinished dBatch st0.i) st0
        = .ok (st', unf') ∧ st = { st' with finalUnfs := st'.finalUnfs ++ [unf'] } := by
  intro h
  have h1 : (1 : ℕ) = 0 + 1 := rfl
  rw [h1, runDevices] at h
  split at h
  · exact absurd h (by simp)
  next st' unf' heq =>
    simp only [runDevices, Except.ok.injEq] at h
    exact ⟨st', unf', heq, h.symm⟩

/-- The initial unfinished list of the first chunk is `0, 1, …`. -/
theorem initUnfinished_zero (d : ℕ) : initUnfinished d 0 = List.range d := by
  simp [initUnfinished]

/-- C1: with one device, any exit rule (covering every `speed` in `[0,1]`),
and `ignore_cls` a duplicate-free set of stage indices in
`[0, num_hidden_layers]` that excludes the final stage, a successful
`_permutate` run gives every example of the batch exactly one result
record — recorded at exactly one loop iteration — whose source is an
element of `keep_cls`, and every device chunk's unfinished list is empty
after its last loop. -/
theorem claim_C1 {α : Type} (exitQ : α → Bool) (z : α) (g bs L : ℕ) (ign : List ℕ)
    (rows : List α) (st : PermState α)
    (hg : g ≤ 1) (hnd : ign.Nodup) (hmem : ∀ c ∈ ign, c ≤ L) (hL : L ∉ ign)
    (hok : permutate exitQ z g bs L ign rows = .ok st) :
    (∀ u, u < bs → traceCount u st.trace = 1) ∧
    (∀ e ∈ st.trace, e.2.1 ∈ keepClsOf L ign) ∧
    (∀ l ∈ st.finalUnfs, l = []) := by
  obtain ⟨hrun, hi⟩ := permutate_ok_inv exitQ z g bs L ign rows st hok
  rw [max_eq_right hg, Nat.div_one] at hrun
  obtain ⟨st', unf', hrl, hst⟩ := runDevices_one exitQ rows bs bs
    (keepClsOf L ign) (maxLoopOf L ign) (initState z bs) st hrun
  rw [show (initState z bs).i = 0 from rfl, initUnfinished_zero] at hrl
  obtain ⟨s1, s2, s3, s4, s5, s6⟩ := runLoops_spec exitQ rows bs (keepClsOf L ign)
    (maxLoopOf L ign) 0 (List.range bs) (initState z bs) st' unf' hrl
  have hempty : unf' = [] := s6 (maxLoopOf_pos L ign hnd hmem hL)
  have htr : st.trace = st'.trace := by rw [hst]
  have hfin : st.finalUnfs = [unf'] := by
    rw [hst]
    have : st'.finalUnfs = (initState z bs).finalUnfs := s2
    rw [this]
    rfl
  refine ⟨?_, ?_, ?_⟩
  · intro u hu
    have hc := s5 u
    rw [hempty] at hc
    have hzero : traceCount u (initState z bs).trace = 0 := rfl
    have hone : (List.range bs).count u = 1 :=
      List.count_eq_one_of_mem (List.nodup_range bs) (List.mem_range.2 hu)
    rw [htr]
    simp only [List.count_nil, hzero, hone] at hc
    omega
  · intro e he
    rw [htr] at he
    rcases s4 e he with he' | he'
    · exact absurd he' (by simp [initState])
    · exact he'
  · intro l hl
    rw [hfin, hempty] at hl
    rcases List.mem_singleton.1 hl with rfl
    rfl

/-- `_permutate` unfolded once (the `let`-bindings of lines 218-219
reduced). -/
theorem permutate_eq {α : Type} (exitQ : α → Bool) (z : α) (g bs L : ℕ) (ign : List ℕ)
    (rows : List α) :
    permutate exitQ z g bs L ign rows =
      match runDevices exitQ rows bs (bs / max g 1) (keepClsOf L ign) (maxLoopOf L ign)
          (max g 1) (initState z bs) with
      | .error e => .error e
      | .ok st => if st.i = rows.length then .ok st else .error .assertionError := rfl

/-- C2: each loop of `_permutate` consumes exactly one probability row per
still-unfinished example, sequentially at the running cursor (strict FIFO);
a run returns successfully precisely when the total number of consumed
rows equals the number of input rows, and a surplus of input rows makes
the closing `assert` fail with a fatal error rather than a recoverable
result (a deficit of rows already aborts with an `IndexError` read). -/
theorem claim_C2 :
    (∀ (α : Type) (exitQ : α → Bool) (rows : List α) (bs : ℕ) (forced : Bool)
        (source : ℕ) (unf : List ℕ) (st st' : PermState α) (unf' : List ℕ),
      stageStep exitQ rows bs forced source unf st = .ok (st', unf') →
      st'.i = st.i + unf.length) ∧
    (∀ (α : Type) (exitQ : α → Bool) (z : α) (g bs L : ℕ) (ign : List ℕ)
        (rows : List α) (st : PermState α),
      runDevices exitQ rows bs (bs / max g 1) (keepClsOf L ign) (maxLoopOf L ign)
        (max g 1) (initState z bs) = .ok st →
      (permutate exitQ z g bs L ign rows = .ok st ↔ st.i = rows.length) ∧
      (st.i ≠ rows.length →
        permutate exitQ z g bs L ign rows = .error .assertionError)) := by
  constructor
  · intro α exitQ rows bs forced source unf st st' unf' h
    exact (stageStep_spec exitQ rows bs forced source unf st st' unf' h).1
  · intro α exitQ z g bs L ign rows st hrun
    constructor
    · constructor
      · intro hok
        exact (permutate_ok_inv exitQ z g bs L ign rows st hok).2
      · intro hi
        rw [permutate_eq, hrun]
        show (if st.i = rows.length then (Except.ok st : Except PermError (PermState α))
          else .error .assertionError) = .ok st
        rw [if_pos hi]
    · intro hi
      rw [permutate_eq, hrun]
      show (if st.i = rows.length then (Except.ok st : Except PermError (PermState α))
        else .error .assertionError) = .error .assertionError
      rw [if_neg hi]

/-- C7: with at least two labels and an exit test that can only fire when
the uncertainty score is strictly below zero (the `speed = 0` setting) —
which never happens, the score being nonnegative — a successful
single-device `_permutate` run records the final kept stage
`keep_cls[-1]` as the source of every example. -/
theorem claim_C7 (labelSize : ℕ) (exitB : List ℝ → Bool) (z : List ℝ) (g bs L : ℕ)
    (ign : List ℕ) (rows : List (List ℝ)) (st : PermState (List ℝ)) (u : ℕ)
    (hls : 2 ≤ labelSize)
    (hexit : ∀ r, exitB r = true → uncertainty labelSize (rowHead r) < 0)
    (hg : g ≤ 1) (hnd : ign.Nodup) (hmem : ∀ c ∈ ign, c ≤ L) (hL : L ∉ ign)
    (hok : permutate exitB z g bs L ign rows = .ok st)
    (hu : u < bs) :
    st.sources.getD u 0 = (keepClsOf L ign).getLastD 0 := by
  have hfalse : ∀ r, exitB r = false := by
    intro r
    cases hb : exitB r with
    | false => rfl
    | true =>
      exact absurd (hexit r hb) (not_lt.2 (uncertainty_nonneg labelSize hls (rowHead r)))
  obtain ⟨hrun, hi⟩ := permutate_ok_inv exitB z g bs L ign rows st hok
  rw [max_eq_right hg, Nat.div_one] at hrun
  obtain ⟨st', unf', hrl, hst⟩ := runDevices_one exitB rows bs bs
    (keepClsOf L ign) (maxLoopOf L ign) (initState z bs) st hrun
  rw [show (initState z bs).i = 0 from rfl, initUnfinished_zero] at hrl
  have hone := maxLoopOf_pos L ign hnd hmem hL
  have hlen0 : (initState z bs).sources.length = bs := by
    simp [initState]
  obtain ⟨hub, hget⟩ := runLoops_constFalse hfalse rows bs (keepClsOf L ign)
    (maxLoopOf L ign) 0 (List.range bs) (initState z bs) st' unf' hone hrl hlen0
    u (List.mem_range.2 hu)
  have hsrc : st.sources = st'.sources := by rw [hst]
  rw [hsrc, hget, getLastD_eq_getD_length_sub_one, keepClsOf_length L ign hnd hmem]
  congr 1
  omega

/-- C8: within a device chunk, the unfinished list after any single loop
of `_permutate` is a subsequence of the list before it, and the list
surviving any run of consecutive loops is a subsequence of the initial
one: surviving examples are never reordered. -/
theorem claim_C8 :
    (∀ (α : Type) (exitQ : α → Bool) (rows : List α) (bs : ℕ) (forced : Bool)
        (source : ℕ) (unf : List ℕ) (st st' : PermState α) (unf' : List ℕ),
      stageStep exitQ rows bs forced source unf st = .ok (st', unf') →
      unf'.Sublist unf) ∧
    (∀ (α : Type) (exitQ : α → Bool) (rows : List α) (bs : ℕ) (keepCls : List ℕ)
        (n loopIdx : ℕ) (unf : List ℕ) (st st' : PermState α) (unfF : List ℕ),
      runLoops exitQ rows bs keepCls n loopIdx unf st = .ok (st', unfF) →
      unfF.Sublist unf) := by
  constructor
  · intro α exitQ rows bs forced source unf st st' unf' h
    exact (stageStep_spec exitQ rows bs forced source unf st st' unf' h).2.1
  · intro α exitQ rows bs keepCls n loopIdx unf st st' unfF h
    exact (runLoops_spec exitQ rows bs keepCls n loopIdx unf st st' unfF h).1

/-- C9: the scheduler is deterministic — it is a pure function of the
probability rows and the configuration; in particular two runs whose exit
tests agree on every row (same speed, same label count) produce identical
results on the same input. -/
theorem claim_C9 {α : Type} (exitQ₁ exitQ₂ : α → Bool) (z : α) (g bs L : ℕ)
    (ign : List ℕ) (rows : List α)
    (h : ∀ r, exitQ₁ r = exitQ₂ r) :
    permutate exitQ₁ z g bs L ign rows = permutate exitQ₂ z g bs L ign rows := by
  rw [funext h]

/-- C3 (failing input): with two devices, batch 4, two kept stages and an
example of chunk 0 surviving the first stage, chunk 0 consumes 3 rows, so
chunk 1's initial unfinished list — built from the running row cursor at
line 230 — is `[3, 4]` instead of the chunk's own example indices `[2, 3]`,
and the run aborts with an `IndexError` writing slot 4 of the size-4
output arrays. -/
theorem claim_C3_eval :
    runLoops (fun r : ℕ => r == 1) [1, 0, 0, 1, 1] 4 (keepClsOf 1 []) 2 0
        (initUnfinished 2 0) (initState 0 4) =
      .ok (⟨[1, 0, 0, 0], [0, 1, 0, 0], 3, [(0, 0, 0), (1, 1, 2)], []⟩, []) ∧
    initUnfinished 2 3 = [3, 4] ∧
    permutate (fun r : ℕ => r == 1) 0 2 4 1 [] [1, 0, 0, 1, 1] =
      .error .indexError :=
  ⟨rfl, rfl, rfl⟩

/-- C4: the source's `_uncertainty` agrees with the spec's description —
clamp the probability to the tiny epsilon whenever it is within epsilon
of 0 or of 1, then return the normalized entropy.  Purity holds by
construction: the embedding is a function of `label_size` and `p` alone,
mirroring a Python closure that only reads `self.label_size`. -/
theorem claim_C4 (labelSize : ℕ) (p : ℝ) :
    uncertainty labelSize p = uncertaintySpec labelSize p := by
  have hc : clampProb p = clampSpecProb p := by
    rw [clampProb, clampSpecProb]
    by_cases hA : p < tinyEps ∨ 1 - p < tinyEps
    · rw [if_pos hA]
      by_cases hB : p < tinyEps
      · rw [if_pos hB]
      · have hC : p > 1 - tinyEps := by
          rcases hA with h | h
          · exact absurd h hB
          · linarith
        rw [if_neg hB, if_pos hC]
    · push_neg at hA
      rw [if_neg (by push_neg; exact hA), if_neg (not_lt.2 hA.1),
        if_neg (not_lt.2 (by linarith [hA.2]))]
  rw [uncertainty, uncertaintySpec, hc]

/-- C5: for `label_size ≥ 2` the uncertainty score of any probability in
`(0, 1)` lies in `[0, 1]`; it is maximal at `p = 1/2`, symmetric under
`p ↦ 1 - p`, and monotonically decreasing (in the weak sense — the clamp
makes it constant within epsilon of the ends) as `p` moves from `1/2`
toward 0 or toward 1. -/
theorem claim_C5 (L : ℕ) (hL : 2 ≤ L) :
    (∀ p : ℝ, 0 < p → p < 1 → 0 ≤ uncertainty L p ∧ uncertainty L p ≤ 1) ∧
    (∀ p : ℝ, uncertainty L p ≤ uncertainty L (1 / 2)) ∧
    (∀ p : ℝ, uncertainty L (1 - p) = uncertainty L p) ∧
    (∀ p₁ p₂ : ℝ, 0 < p₁ → p₁ ≤ p₂ → p₂ ≤ 1 / 2 →
      uncertainty L p₁ ≤ uncertainty L p₂) ∧
    (∀ p₁ p₂ : ℝ, 1 / 2 ≤ p₁ → p₁ ≤ p₂ → p₂ < 1 →
      uncertainty L p₂ ≤ uncertainty L p₁) := by
  refine ⟨fun p _ _ => ⟨uncertainty_nonneg L hL p, uncertainty_le_one L hL p⟩,
    fun p => uncertainty_le_half L hL p, fun p => uncertainty_one_sub L p, ?_, ?_⟩
  · intro p₁ p₂ h1 h12 h2
    exact uncertainty_mono L hL p₁ p₂ h1 h12 h2
  · intro p₁ p₂ h1 h12 h2
    rw [← uncertainty_one_sub L p₁, ← uncertainty_one_sub L p₂]
    exact uncertainty_mono L hL (1 - p₂) (1 - p₁) (by linarith) (by linarith) (by linarith)

/-- C6 (counterexample): with `label_size = 1` the denominator
`log(1/label_size)` is zero, yet `_uncertainty` has no guard: it still
forms numerator/denominator — the numerator being nonzero, e.g. at
`p = 1/2` — so a division by zero does occur (in this real-valued model
the quotient collapses to the junk value 0; NumPy emits inf/nan). -/
theorem claim_C6_cex :
    Real.log (1 / ((1 : ℕ) : ℝ)) = 0 ∧
    uncertainty 1 (1 / 2) = 0 ∧
    clampProb (1 / 2) * Real.log (clampProb (1 / 2)) +
      (1 - clampProb (1 / 2)) * Real.log (1 - clampProb (1 / 2)) ≠ 0 := by
  refine ⟨by norm_num, ?_, ?_⟩
  · rw [uncertainty]
    norm_num
  · rw [clampProb_half]
    have hneg : Real.log ((1 : ℝ) / 2) < 0 := Real.log_neg (by norm_num) (by norm_num)
    have hsum : (1 : ℝ) / 2 * Real.log (1 / 2) + (1 - 1 / 2) * Real.log (1 - 1 / 2) =
        Real.log (1 / 2) := by
      norm_num
      ring
    rw [hsum]
    exact ne_of_lt hneg

/-- C6 (amended): for `label_size = 1` the denominator `log(1) = 0` and
the unguarded division runs anyway, yielding the degenerate value 0 (in
real-number semantics, where `x / 0 = 0`) for every input probability —
no guard branch exists in the source. -/
theorem claim_C6_amended :
    Real.log (1 / ((1 : ℕ) : ℝ)) = 0 ∧ ∀ p : ℝ, uncertainty 1 p = 0 := by
  refine ⟨by norm_num, fun p => ?_⟩
  rw [uncertainty]
  norm_num

/-- Closed form of the shared predict/score/export preamble: the stored
values end up equal to the supplied ones, and the session is invalidated
exactly when either supplied value differs from the stored one; when both
coincide the state is returned untouched. -/
theorem configUpdate_closed_form {μ : Type} (conv : List ℕ) (sp : ℚ) (st : ModuleState μ) :
    predictConfigUpdate conv sp st =
      if conv = st.ignoreCls ∧ sp = st.speed then st else ⟨sp, conv, none⟩ := by
  obtain ⟨s, ig, m⟩ := st
  rw [predictConfigUpdate]
  by_cases hig : conv = ig <;> by_cases hsp : sp = s <;>
    simp_all [ModuleState.mk.injEq]

/-- C10: in each of `predict`, `score` and `export`, the update preamble
overwrites `_speed` and `_ignore_cls` with the supplied values and sets
`_session_mode` to `None` exactly when either the supplied `speed` or the
converted `ignore_cls` differs from the stored value; when both match,
the three attributes are left untouched. -/
theorem claim_C10 {μ : Type} (conv : List ℕ) (sp : ℚ) (st : ModuleState μ) :
    predictConfigUpdate conv sp st =
      (if conv = st.ignoreCls ∧ sp = st.speed then st else ⟨sp, conv, none⟩) ∧
    scoreConfigUpdate conv sp st =
      (if conv = st.ignoreCls ∧ sp = st.speed then st else ⟨sp, conv, none⟩) ∧
    exportConfigUpdate conv sp st =
      (if conv = st.ignoreCls ∧ sp = st.speed then st else ⟨sp, conv, none⟩) :=
  ⟨configUpdate_closed_form conv sp st, configUpdate_closed_form conv sp st,
    configUpdate_closed_form conv sp st⟩

/-- Witness for C1 at a concrete single-device run (batch 2, two kept
stages, one early exit): example 0 holds exactly one result record. -/
theorem claim_C1_witness :
    traceCount 0 [(0, 0, 0), (1, 1, 2)] = 1 :=
  (claim_C1 (fun r : ℕ => r == 1) 0 0 2 1 [] [1, 0, 0]
      ⟨[1, 0], [0, 1], 3, [(0, 0, 0), (1, 1, 2)], [[]]⟩
      (by omega) List.nodup_nil (by simp) (by simp) rfl).1 0 (by omega)

/-- Witness for C2 at concrete runs: a one-example stage advances the
cursor by one, and a complete run succeeds exactly when it consumed every
input row. -/
theorem claim_C2_witness :
    (⟨[(5 : ℕ)], [0], 1, [(0, 0, 0)], []⟩ : PermState ℕ).i =
      (initState (0 : ℕ) 1).i + [(0 : ℕ)].length ∧
    (permutate (fun _ : ℕ => true) 0 0 1 1 [] [7] =
        .ok ⟨[7], [0], 1, [(0, 0, 0)], [[]]⟩ ↔
      (⟨[7], [0], 1, [(0, 0, 0)], [[]]⟩ : PermState ℕ).i = [(7 : ℕ)].length) :=
  ⟨claim_C2.1 ℕ (fun _ => true) [5] 1 false 0 [0] (initState 0 1)
      ⟨[5], [0], 1, [(0, 0, 0)], []⟩ [] rfl,
    (claim_C2.2 ℕ (fun _ => true) 0 0 1 1 [] [7]
      ⟨[7], [0], 1, [(0, 0, 0)], [[]]⟩ rfl).1⟩

/-- Witness for C5 at `label_size = 2`, `p = 1/3`: symmetry and
nonnegativity at a concrete probability. -/
theorem claim_C5_witness :
    uncertainty 2 (1 - 1 / 3) = uncertainty 2 (1 / 3) ∧ 0 ≤ uncertainty 2 (1 / 3) :=
  ⟨(claim_C5 2 (by norm_num)).2.2.1 (1 / 3),
    ((claim_C5 2 (by norm_num)).1 (1 / 3) (by norm_num) (by norm_num)).1⟩

/-- Witness for C7 at a concrete run (two labels, exit test constantly
`false`, batch 1, two kept stages): the recorded source is the last kept
stage. -/
theorem claim_C7_witness :
    ([1] : List ℕ).getD 0 0 = (keepClsOf 1 []).getLastD 0 :=
  claim_C7 2 (fun _ => false) [0, 0] 0 1 1 [] [[1, 0], [1, 0]]
    ⟨[[1, 0]], [1], 2, [(0, 1, 1)], [[]]⟩ 0 (by omega)
    (fun r h => nomatch h) (by omega) List.nodup_nil (by simp) (by simp) rfl (by omega)

/-- Witness for C8 at concrete runs: the empty survivor lists are
subsequences of the initial one-element lists. -/
theorem claim_C8_witness :
    ([] : List ℕ).Sublist [0] ∧ ([] : List ℕ).Sublist [0] :=
  ⟨claim_C8.1 ℕ (fun _ => true) [5] 1 false 0 [0] (initState 0 1)
      ⟨[5], [0], 1, [(0, 0, 0)], []⟩ [] rfl,
    claim_C8.2 ℕ (fun _ => true) [7] 1 (keepClsOf 1 []) 2 0 [0] (initState 0 1)
      ⟨[7], [0], 1, [(0, 0, 0)], []⟩ [] rfl⟩

/-- Witness for C9 with two syntactically different but extensionally
equal exit tests on a concrete batch. -/
theorem claim_C9_witness :
    permutate (fun _ : ℕ => true) 0 0 1 0 [] [3] =
      permutate (fun r : ℕ => r == r) 0 0 1 0 [] [3] :=
  claim_C9 (fun _ => true) (fun r => r == r) 0 0 1 0 [] [3]
    (fun r => (beq_self_eq_true r).symm)

end FastBert

-- sanity: the C3 counter-scenario.  Two devices, batch 4, layers 1,
-- nothing ignored.  Chunk 0 consumes 3 rows (example 1 survives stage 0),
-- so chunk 1's unfinished list starts at 3 instead of 2, and the run
-- crashes writing example index 4 into arrays of size 4.
example :
    FastBert.runLoops (fun r : ℕ => r == 1) [1, 0, 0, 1, 1] 4 (FastBert.keepClsOf 1 []) 2 0
      (FastBert.initUnfinished 2 0) (FastBert.initState 0 4) =
      .ok (⟨[1, 0, 0, 0], [0, 1, 0, 0], 3, [(0, 0, 0), (1, 1, 2)], []⟩, []) := rfl

example : FastBert.initUnfinished 2 3 = [3, 4] := rfl

example :
    FastBert.permutate (fun r : ℕ => r == 1) 0 2 4 1 [] [1, 0, 0, 1, 1] =
      .error .indexError := rfl

-- sanity: one device, batch 2, layers 1, nothing ignored; example 0 exits
-- at stage 0, example 1 is forced out at stage 1.
example :
    FastBert.permutate (fun r : ℕ => r == 1) 0 0 2 1 [] [1, 0, 0] =
      .ok ⟨[1, 0], [0, 1], 3, [(0, 0, 0), (1, 1, 2)], [[]]⟩ := rfl

-- sanity: short row stream: IndexError before the assert.
example :
    FastBert.permutate (fun r : ℕ => r == 1) 0 0 2 1 [] [0, 0] =
      .error .indexError := rfl

-- sanity: over-long row stream: the final assert fires.
example :
    FastBert.permutate (fun r : ℕ => r == 1) 0 0 2 1 [] [1, 1, 0] =
      .error .assertionError := rfl
